import Mathlib

/-!
Verification of the SnnGrow spike GEMM core: the thread-level spike accumulate
routine (MmaGeneric specializations for a binary operand), the thread-level
dispatch wrappers (Mma), the warp-level SpikeMmaSimt helpers (transform,
use_dp4a selection), and the threadblock-level SpikeMma layout assertion.

Fragments are flat arrays (Lean lists); layouts are coordinate-to-offset maps.
Reads through a tensor reference become List.getD and the single-cell write
back becomes List.set, exactly mirroring the loop nest in the source.
-/

namespace SpikeGemm

/-- Serpentine row index for the innermost loop of the thread-level accumulate:
the source computes, with n and m loop counters and kM the row extent,
an index that is kM - 1 - m when n is odd and m when n is even. -/
def m_serpentine (M n m : Nat) : Nat :=
  if n % 2 = 1 then M - 1 - m else m

/-- Modelled from the spec: the leaf scalar MMA primitive for a binary A operand
lives in arch/mma_spike.h, which is not among the sources here. Per the spec,
when the binary operand bit is 1 the primitive adds the other operand scalar
into the accumulator, otherwise it leaves the accumulator unchanged. -/
def spikeMacA {R : Type} [AddCommMonoid R] (d : R) (a : Bool) (b : R) : R :=
  if a then d + b else d

/-- Modelled from the spec: the leaf scalar MMA primitive for a binary B operand,
symmetric to spikeMacA: if the binary bit of B is 1, add the scalar of A into
the accumulator, otherwise leave it unchanged. -/
def spikeMacB {R : Type} [AddCommMonoid R] (d : R) (a : R) (b : Bool) : R :=
  if b then d + a else d

/-- Packed row-major layout map: coordinate (r, c) of a matrix with the given
number of columns goes to flat offset r * cols + c. -/
def rowMajor (cols r c : Nat) : Nat := r * cols + c

/-- Packed column-major layout map: coordinate (r, c) of a matrix with the given
number of rows goes to flat offset r + c * rows. -/
def colMajor (rows r c : Nat) : Nat := r + c * rows

/-- One iteration of the innermost loop body of the bool-A MmaGeneric
specialization, at the visited triple t = (k, n, serpentine row index):
read d, a and b through the three tensor references, apply the leaf
primitive, and write the result back to the accumulator cell. -/
def cellStepA {R : Type} [AddCommMonoid R] (lA lB lC : Nat → Nat → Nat)
    (A : List Bool) (B : List R) (D : List R) (t : Nat × Nat × Nat) : List R :=
  let k := t.1
  let n := t.2.1
  let ms := t.2.2
  let d := D.getD (lC ms n) 0
  let a := A.getD (lA ms k) false
  let b := B.getD (lB k n) 0
  D.set (lC ms n) (spikeMacA d a b)

/-- One iteration of the innermost loop body of the bool-B MmaGeneric
specialization, at the visited triple t = (k, n, serpentine row index). -/
def cellStepB {R : Type} [AddCommMonoid R] (lA lB lC : Nat → Nat → Nat)
    (A : List R) (B : List Bool) (D : List R) (t : Nat × Nat × Nat) : List R :=
  let k := t.1
  let n := t.2.1
  let ms := t.2.2
  let d := D.getD (lC ms n) 0
  let a := A.getD (lA ms k) 0
  let b := B.getD (lB k n) false
  D.set (lC ms n) (spikeMacB d a b)

/-- The operator() of MmaGeneric with ElementA = bool: D is initialized to C,
then three nested loops run with k outermost, n next, m innermost; the m loop
applies the serpentine reindexing before each single-cell update. -/
def mmaGenericBoolA {R : Type} [AddCommMonoid R] (M N K : Nat)
    (lA lB lC : Nat → Nat → Nat) (A : List Bool) (B Cf : List R) : List R :=
  (List.range K).foldl (fun D k =>
    (List.range N).foldl (fun D n =>
      (List.range M).foldl (fun D m =>
        cellStepA lA lB lC A B D (k, n, m_serpentine M n m)) D) D) Cf

/-- The operator() of MmaGeneric with ElementB = bool: same loop nest as the
bool-A specialization, with the leaf primitive predicated on B. -/
def mmaGenericBoolB {R : Type} [AddCommMonoid R] (M N K : Nat)
    (lA lB lC : Nat → Nat → Nat) (A : List R) (B : List Bool) (Cf : List R) : List R :=
  (List.range K).foldl (fun D k =>
    (List.range N).foldl (fun D n =>
      (List.range M).foldl (fun D m =>
        cellStepB lA lB lC A B D (k, n, m_serpentine M n m)) D) D) Cf

/-- Variant of the bool-A loop nest following the words of the spec for the
refinement comparison: the natural row-major traversal, m always ascending,
with no serpentine reindexing. -/
def mmaGenericBoolANatural {R : Type} [AddCommMonoid R] (M N K : Nat)
    (lA lB lC : Nat → Nat → Nat) (A : List Bool) (B Cf : List R) : List R :=
  (List.range K).foldl (fun D k =>
    (List.range N).foldl (fun D n =>
      (List.range M).foldl (fun D m =>
        cellStepA lA lB lC A B D (k, n, m)) D) D) Cf

/-- Variant of the bool-B loop nest with the natural row-major traversal,
for the refinement comparison. -/
def mmaGenericBoolBNatural {R : Type} [AddCommMonoid R] (M N K : Nat)
    (lA lB lC : Nat → Nat → Nat) (A : List R) (B : List Bool) (Cf : List R) : List R :=
  (List.range K).foldl (fun D k =>
    (List.range N).foldl (fun D n =>
      (List.range M).foldl (fun D m =>
        cellStepB lA lB lC A B D (k, n, m)) D) D) Cf

/-- The operator() of the dispatch wrapper Mma with ElementA = bool and
operator arch::OpMultiplyAdd: it constructs the MmaGeneric specialization and
invokes it on D, A, B, C. -/
def mmaBoolA {R : Type} [AddCommMonoid R] (M N K : Nat)
    (lA lB lC : Nat → Nat → Nat) (A : List Bool) (B Cf : List R) : List R :=
  mmaGenericBoolA M N K lA lB lC A B Cf

/-- The operator() of the dispatch wrapper Mma with ElementB = bool and
operator arch::OpMultiplyAdd: it constructs the MmaGeneric specialization and
invokes it on D, A, B, C. -/
def mmaBoolB {R : Type} [AddCommMonoid R] (M N K : Nat)
    (lA lB lC : Nat → Nat → Nat) (A : List R) (B : List Bool) (Cf : List R) : List R :=
  mmaGenericBoolB M N K lA lB lC A B Cf

/-- The transform method of the warp-level SpikeMmaSimt: dst_A is assigned A
and dst_B is assigned B, element for element. -/
def spikeMmaSimtTransform {α β : Type} (A : List α) (B : List β) :
    List α × List β :=
  (A, B)

/-- The ordered list of (k, n, row) cell visits performed by the spike
accumulate loop nest: k outermost, then n, then m innermost, with the
serpentine reindexing applied to the row component. -/
def visitOrder (M N K : Nat) : List (Nat × Nat × Nat) :=
  (List.range K).flatMap fun k =>
    (List.range N).flatMap fun n =>
      (List.range M).map fun m => (k, n, m_serpentine M n m)

/-- The same loop nest visits in natural row-major order, m always ascending. -/
def visitNatural (M N K : Nat) : List (Nat × Nat × Nat) :=
  (List.range K).flatMap fun k =>
    (List.range N).flatMap fun n =>
      (List.range M).map fun m => (k, n, m)

/-- Layout tags distinguishing the matrix layout types that the warp and
threadblock levels test with platform is_same. -/
inductive LayoutTag where
  | rowMajorTag
  | columnMajorTag
  | affineRankN2Tag
  | columnMajorInterleaved4Tag
  | rowMajorInterleaved4Tag
  deriving DecidableEq, Fintype

/-- Element type tags distinguishing the element types that the warp level
tests with platform is_same. -/
inductive ElementTag where
  | int8
  | f16
  | f32
  | boolTag
  deriving DecidableEq, Fintype

/-- The static assert guarding the SIMT specialization of the threadblock
SpikeMma: the accumulator layout must be row major or the rank-2 affine
layout, otherwise the instantiation fails to build. -/
def spikeMmaSimtLayoutCAssert (lC : LayoutTag) : Bool :=
  (lC == LayoutTag.rowMajorTag) || (lC == LayoutTag.affineRankN2Tag)

/-- The warp-level compile-time flag use_dp4a: LayoutA is one of the two
4-wide interleaved layouts and both ElementA and ElementB are int8_t. -/
def use_dp4a (layoutA : LayoutTag) (elemA elemB : ElementTag) : Bool :=
  ((layoutA == LayoutTag.columnMajorInterleaved4Tag)
    || (layoutA == LayoutTag.rowMajorInterleaved4Tag))
  && (elemA == ElementTag.int8) && (elemB == ElementTag.int8)

/-- The warp-level alias dp4a_type: int8_t when use_dp4a holds, bool
otherwise. -/
def dp4a_type (layoutA : LayoutTag) (elemA elemB : ElementTag) : ElementTag :=
  if use_dp4a layoutA elemA elemB then ElementTag.int8 else ElementTag.boolTag

/-- Abstract form of one loop-body iteration: add a weight to one accumulator
cell, reading and writing the same flat offset. Both cellStepA and cellStepB
have this shape. -/
def addCellStep {α R : Type} [AddCommMonoid R] (cell : α → Nat) (w : α → R)
    (D : List R) (t : α) : List R :=
  D.set (cell t) (D.getD (cell t) 0 + w t)

theorem cellStepA_eq_addCell {R : Type} [AddCommMonoid R]
    (lA lB lC : Nat → Nat → Nat) (A : List Bool) (B : List R) :
    cellStepA lA lB lC A B = addCellStep (fun t => lC t.2.2 t.2.1)
      (fun t => if A.getD (lA t.2.2 t.1) false then B.getD (lB t.1 t.2.1) 0 else 0) := by
  funext D t
  simp only [cellStepA, addCellStep, spikeMacA]
  cases h : A.getD (lA t.2.2 t.1) false <;> simp [h]

theorem cellStepB_eq_addCell {R : Type} [AddCommMonoid R]
    (lA lB lC : Nat → Nat → Nat) (A : List R) (B : List Bool) :
    cellStepB lA lB lC A B = addCellStep (fun t => lC t.2.2 t.2.1)
      (fun t => if B.getD (lB t.1 t.2.1) false then A.getD (lA t.2.2 t.1) 0 else 0) := by
  funext D t
  simp only [cellStepB, addCellStep, spikeMacB]
  cases h : B.getD (lB t.1 t.2.1) false <;> simp [h]

theorem length_addCellStep {α R : Type} [AddCommMonoid R] (cell : α → Nat)
    (w : α → R) (D : List R) (t : α) :
    (addCellStep cell w D t).length = D.length := by
  simp [addCellStep]

theorem length_foldl_addCell {α R : Type} [AddCommMonoid R] (cell : α → Nat)
    (w : α → R) :
    ∀ (L : List α) (D : List R),
      (L.foldl (addCellStep cell w) D).length = D.length := by
  intro L
  induction L with
  | nil => intro D; rfl
  | cons t L ih =>
    intro D
    rw [List.foldl_cons, ih, length_addCellStep]

theorem getD_addCellStep_self {α R : Type} [AddCommMonoid R] (cell : α → Nat)
    (w : α → R) (D : List R) (t : α) (h : cell t < D.length) :
    (addCellStep cell w D t).getD (cell t) 0 = D.getD (cell t) 0 + w t := by
  simp only [addCellStep]
  rw [List.getD_eq_getElem _ _ (by simpa using h), List.getElem_set_self]

theorem getD_addCellStep_ne {α R : Type} [AddCommMonoid R] (cell : α → Nat)
    (w : α → R) (D : List R) (t : α) (j : Nat) (hne : cell t ≠ j) :
    (addCellStep cell w D t).getD j 0 = D.getD j 0 := by
  simp only [addCellStep, List.getD_eq_getElem?_getD]
  rw [List.getElem?_set_ne hne]

theorem getD_foldl_addCell {α R : Type} [AddCommMonoid R] (cell : α → Nat)
    (w : α → R) :
    ∀ (L : List α) (D : List R) (j : Nat), j < D.length →
      (L.foldl (addCellStep cell w) D).getD j 0
        = D.getD j 0 + (L.map fun t => if cell t = j then w t else 0).sum := by
  intro L
  induction L with
  | nil =>
    intro D j hj
    simp
  | cons t L ih =>
    intro D j hj
    simp only [List.foldl_cons, List.map_cons, List.sum_cons]
    rw [ih _ j (by rw [length_addCellStep]; exact hj)]
    by_cases hc : cell t = j
    · rw [← hc] at hj ⊢
      rw [getD_addCellStep_self cell w D t hj, if_pos rfl, add_assoc]
    · rw [getD_addCellStep_ne cell w D t j hc, if_neg hc, zero_add]

theorem foldl_flatMap {α β γ : Type} (g : β → α → β) (xs : List γ)
    (f : γ → List α) (b : β) :
    (xs.flatMap f).foldl g b = xs.foldl (fun acc x => (f x).foldl g acc) b := by
  induction xs generalizing b with
  | nil => rfl
  | cons x xs ih => rw [List.flatMap_cons, List.foldl_append, List.foldl_cons, ih]

theorem mmaGenericBoolA_eq_visit {R : Type} [AddCommMonoid R] (M N K : Nat)
    (lA lB lC : Nat → Nat → Nat) (A : List Bool) (B Cf : List R) :
    mmaGenericBoolA M N K lA lB lC A B Cf
      = (visitOrder M N K).foldl (cellStepA lA lB lC A B) Cf := by
  simp only [mmaGenericBoolA, visitOrder, foldl_flatMap, List.foldl_map]

theorem mmaGenericBoolB_eq_visit {R : Type} [AddCommMonoid R] (M N K : Nat)
    (lA lB lC : Nat → Nat → Nat) (A : List R) (B : List Bool) (Cf : List R) :
    mmaGenericBoolB M N K lA lB lC A B Cf
      = (visitOrder M N K).foldl (cellStepB lA lB lC A B) Cf := by
  simp only [mmaGenericBoolB, visitOrder, foldl_flatMap, List.foldl_map]

theorem mmaGenericBoolANatural_eq_visit {R : Type} [AddCommMonoid R] (M N K : Nat)
    (lA lB lC : Nat → Nat → Nat) (A : List Bool) (B Cf : List R) :
    mmaGenericBoolANatural M N K lA lB lC A B Cf
      = (visitNatural M N K).foldl (cellStepA lA lB lC A B) Cf := by
  simp only [mmaGenericBoolANatural, visitNatural, foldl_flatMap, List.foldl_map]

theorem mmaGenericBoolBNatural_eq_visit {R : Type} [AddCommMonoid R] (M N K : Nat)
    (lA lB lC : Nat → Nat → Nat) (A : List R) (B : List Bool) (Cf : List R) :
    mmaGenericBoolBNatural M N K lA lB lC A B Cf
      = (visitNatural M N K).foldl (cellStepB lA lB lC A B) Cf := by
  simp only [mmaGenericBoolBNatural, visitNatural, foldl_flatMap, List.foldl_map]

theorem serp_map_even (M n : Nat) (h : n % 2 = 0) :
    (List.range M).map (m_serpentine M n) = List.range M := by
  have h1 : (List.range M).map (m_serpentine M n)
      = (List.range M).map (fun m => m) :=
    List.map_congr_left (by intro m _; simp [m_serpentine, h])
  simpa using h1

theorem reverse_range_eq_map (M : Nat) :
    (List.range M).reverse = (List.range M).map (fun x => M - 1 - x) := by
  have h := List.reverse_range' 0 M
  rw [← List.range_eq_range'] at h
  simpa using h

theorem serp_map_odd (M n : Nat) (h : n % 2 = 1) :
    (List.range M).map (m_serpentine M n) = (List.range M).reverse := by
  rw [reverse_range_eq_map]
  exact List.map_congr_left (by intro m _; simp [m_serpentine, h])

theorem serp_perm (M n : Nat) :
    ((List.range M).map (m_serpentine M n)).Perm (List.range M) := by
  rcases Nat.mod_two_eq_zero_or_one n with h | h
  · rw [serp_map_even M n h]
  · rw [serp_map_odd M n h]
    exact List.reverse_perm _

theorem flatMap_perm_congr {α γ : Type} (xs : List γ) (f g : γ → List α)
    (h : ∀ x ∈ xs, (f x).Perm (g x)) : (xs.flatMap f).Perm (xs.flatMap g) := by
  induction xs with
  | nil => simp
  | cons x xs ih =>
    simp only [List.flatMap_cons]
    exact (h x (List.mem_cons_self x xs)).append
      (ih fun y hy => h y (List.mem_cons_of_mem x hy))

theorem visitOrder_perm_natural (M N K : Nat) :
    (visitOrder M N K).Perm (visitNatural M N K) := by
  unfold visitOrder visitNatural
  refine flatMap_perm_congr _ _ _ ?_
  intro k _
  refine flatMap_perm_congr _ _ _ ?_
  intro n _
  have h1 : (List.range M).map (fun m => (k, n, m_serpentine M n m))
      = ((List.range M).map (m_serpentine M n)).map (fun ms => (k, n, ms)) := by
    rw [List.map_map]
    rfl
  rw [h1]
  exact List.Perm.map _ (serp_perm M n)

theorem sum_map_range {R : Type} [AddCommMonoid R] (f : Nat → R) :
    ∀ n : Nat, ((List.range n).map f).sum = ∑ i ∈ Finset.range n, f i := by
  intro n
  induction n with
  | zero => simp
  | succ n ih =>
    rw [List.range_succ, List.map_append, List.sum_append, Finset.sum_range_succ, ih]
    simp

theorem sum_map_flatMap {α γ R : Type} [AddCommMonoid R] (g : α → R)
    (f : γ → List α) :
    ∀ xs : List γ,
      ((xs.flatMap f).map g).sum = (xs.map fun x => ((f x).map g).sum).sum := by
  intro xs
  induction xs with
  | nil => simp
  | cons x xs ih =>
    simp only [List.flatMap_cons, List.map_append, List.sum_append, List.map_cons,
      List.sum_cons, ih]

theorem visit_contrib_sum {R : Type} [AddCommMonoid R] (M N K : Nat)
    (lC : Nat → Nat → Nat) (w : Nat → Nat → Nat → R) (m n : Nat)
    (hm : m < M) (hn : n < N)
    (hinj : ∀ m2, m2 < M → ∀ n2, n2 < N → lC m2 n2 = lC m n → m2 = m ∧ n2 = n) :
    ((visitOrder M N K).map
        (fun t => if lC t.2.2 t.2.1 = lC m n then w t.1 t.2.2 t.2.1 else 0)).sum
      = ∑ k ∈ Finset.range K, w k m n := by
  rw [List.Perm.sum_eq (List.Perm.map _ (visitOrder_perm_natural M N K))]
  unfold visitNatural
  rw [sum_map_flatMap, sum_map_range]
  refine Finset.sum_congr rfl ?_
  intro k _
  rw [sum_map_flatMap, sum_map_range]
  rw [Finset.sum_eq_single_of_mem n (Finset.mem_range.2 hn)]
  · rw [List.map_map, sum_map_range]
    rw [Finset.sum_eq_single_of_mem m (Finset.mem_range.2 hm)]
    · simp [Function.comp]
    · intro m2 hm2 hne
      simp only [Function.comp]
      refine if_neg ?_
      intro hc
      exact hne (hinj m2 (List.mem_range.1 (by simpa using hm2)) n hn hc).1
  · intro n2 hn2 hne
    rw [List.map_map, sum_map_range]
    refine Finset.sum_eq_zero ?_
    intro m2 hm2
    simp only [Function.comp]
    refine if_neg ?_
    intro hc
    exact hne (hinj m2 (by simpa using hm2) n2 (by simpa using hn2) hc).2

theorem count_flatMap {β γ : Type} [BEq β] (b : β) :
    ∀ (xs : List γ) (f : γ → List β),
      ((xs.flatMap f).count b) = (xs.map fun x => (f x).count b).sum := by
  intro xs f
  induction xs with
  | nil => simp
  | cons x xs ih =>
    simp only [List.flatMap_cons, List.count_append, List.map_cons, List.sum_cons, ih]

theorem count_range_eq (a n : Nat) :
    (List.range n).count a = if a < n then 1 else 0 := by
  induction n with
  | zero => simp
  | succ n ih =>
    rw [List.range_succ, List.count_append, ih, List.count_singleton]
    simp only [beq_iff_eq]
    split_ifs <;> omega

theorem count_map_pair (kv nv ms : Nat) :
    ∀ L : List Nat, ((L.map fun x => (kv, nv, x)).count (kv, nv, ms)) = L.count ms := by
  intro L
  induction L with
  | nil => simp
  | cons x L ih => simp [List.count_cons, ih, beq_iff_eq]

theorem count_map_triple (M k n ms kv nv : Nat) (g : Nat → Nat) :
    ((List.range M).map fun m => (kv, nv, g m)).count (k, n, ms)
      = if kv = k ∧ nv = n then ((List.range M).map g).count ms else 0 := by
  by_cases hkn : kv = k ∧ nv = n
  · obtain ⟨hk, hn⟩ := hkn
    subst hk
    subst hn
    rw [if_pos ⟨rfl, rfl⟩]
    have h1 : (List.range M).map (fun m => (kv, nv, g m))
        = ((List.range M).map g).map (fun x => (kv, nv, x)) := by
      rw [List.map_map]
      rfl
    rw [h1]
    exact count_map_pair kv nv ms _
  · rw [if_neg hkn]
    refine List.count_eq_zero.2 ?_
    intro hmem
    obtain ⟨m2, _, heq⟩ := List.mem_map.1 hmem
    simp only [Prod.mk.injEq] at heq
    exact hkn ⟨heq.1, heq.2.1⟩

theorem visitOrder_count (M N K k n ms : Nat) (hk : k < K) (hn : n < N)
    (hms : ms < M) : (visitOrder M N K).count (k, n, ms) = 1 := by
  unfold visitOrder
  rw [count_flatMap]
  have hinner : ∀ kv,
      (((List.range N).flatMap fun nv =>
        (List.range M).map fun m => (kv, nv, m_serpentine M nv m)).count (k, n, ms))
      = if kv = k then 1 else 0 := by
    intro kv
    rw [count_flatMap]
    have h2 : ∀ nv,
        (((List.range M).map fun m => (kv, nv, m_serpentine M nv m)).count (k, n, ms))
        = if kv = k ∧ nv = n then 1 else 0 := by
      intro nv
      rw [count_map_triple]
      rw [List.Perm.count_eq (serp_perm M nv) ms, count_range_eq, if_pos hms]
    simp only [h2]
    by_cases hkv : kv = k
    · rw [if_pos hkv, sum_map_range]
      rw [Finset.sum_eq_single_of_mem n (Finset.mem_range.2 hn)]
      · rw [if_pos ⟨hkv, rfl⟩]
      · intro n2 _ hne
        exact if_neg (by intro hc; exact hne hc.2)
    · rw [if_neg hkv, sum_map_range]
      refine Finset.sum_eq_zero ?_
      intro n2 _
      exact if_neg (by intro hc; exact hkv hc.1)
  simp only [hinner]
  rw [sum_map_range]
  rw [Finset.sum_eq_single_of_mem k (Finset.mem_range.2 hk)]
  · rw [if_pos rfl]
  · intro k2 _ hne
    exact if_neg hne

theorem foldl_addCell_perm {α R : Type} [AddCommMonoid R] (cell : α → Nat)
    (w : α → R) {L1 L2 : List α} (hp : L1.Perm L2) (D : List R) :
    L1.foldl (addCellStep cell w) D = L2.foldl (addCellStep cell w) D := by
  apply List.ext_getElem
  · rw [length_foldl_addCell, length_foldl_addCell]
  · intro j h1 h2
    have hj : j < D.length := by
      rw [length_foldl_addCell] at h1
      exact h1
    rw [← List.getD_eq_getElem _ 0 h1, ← List.getD_eq_getElem _ 0 h2]
    rw [getD_foldl_addCell _ _ _ _ _ hj, getD_foldl_addCell _ _ _ _ _ hj]
    congr 1
    exact List.Perm.sum_eq (List.Perm.map _ hp)

/-- Claim C1: for every thread-tile shape, when operand A is binary the
thread-level accumulate produces D with the accumulator cell at coordinate
(m, n) equal to the C cell there plus the sum over k of the B value at (k, n)
whenever the A bit at (m, k) is set, for any operand layouts and any
accumulator layout map that is injective on the tile. -/
theorem C1_mmaGenericBoolA_formula {R : Type} [AddCommMonoid R] (M N K : Nat)
    (lA lB lC : Nat → Nat → Nat) (A : List Bool) (B Cf : List R) (m n : Nat)
    (hm : m < M) (hn : n < N) (hL : lC m n < Cf.length)
    (hinj : ∀ m2, m2 < M → ∀ n2, n2 < N → lC m2 n2 = lC m n → m2 = m ∧ n2 = n) :
    (mmaGenericBoolA M N K lA lB lC A B Cf).getD (lC m n) 0
      = Cf.getD (lC m n) 0
        + ∑ k ∈ Finset.range K,
            (if A.getD (lA m k) false then B.getD (lB k n) 0 else 0) := by
  rw [mmaGenericBoolA_eq_visit, cellStepA_eq_addCell,
    getD_foldl_addCell _ _ _ _ _ hL]
  congr 1
  exact visit_contrib_sum M N K lC
    (fun k ms nv => if A.getD (lA ms k) false then B.getD (lB k nv) 0 else 0)
    m n hm hn hinj

/-- Witness for claim C1 at the concrete shape M = N = K = 1 with row-major
layouts, A = [1], B = [5], C = [3]. -/
theorem C1_mmaGenericBoolA_formula_witness :
    (mmaGenericBoolA 1 1 1 (rowMajor 1) (rowMajor 1) (rowMajor 1) [true]
        [(5 : Int)] [(3 : Int)]).getD (rowMajor 1 0 0) 0
      = ([(3 : Int)]).getD (rowMajor 1 0 0) 0
        + ∑ k ∈ Finset.range 1,
            (if ([true]).getD (rowMajor 1 0 k) false
              then ([(5 : Int)]).getD (rowMajor 1 k 0) 0 else 0) :=
  C1_mmaGenericBoolA_formula 1 1 1 (rowMajor 1) (rowMajor 1) (rowMajor 1)
    [true] [(5 : Int)] [(3 : Int)] 0 0 (by decide) (by decide) (by decide)
    (by decide)

/-- Claim C2: for every thread-tile shape, when operand B is binary the
thread-level accumulate produces D with the accumulator cell at coordinate
(m, n) equal to the C cell there plus the sum over k of the A value at (m, k)
whenever the B bit at (k, n) is set, for any operand layouts and any
accumulator layout map that is injective on the tile. -/
theorem C2_mmaGenericBoolB_formula {R : Type} [AddCommMonoid R] (M N K : Nat)
    (lA lB lC : Nat → Nat → Nat) (A : List R) (B : List Bool) (Cf : List R)
    (m n : Nat) (hm : m < M) (hn : n < N) (hL : lC m n < Cf.length)
    (hinj : ∀ m2, m2 < M → ∀ n2, n2 < N → lC m2 n2 = lC m n → m2 = m ∧ n2 = n) :
    (mmaGenericBoolB M N K lA lB lC A B Cf).getD (lC m n) 0
      = Cf.getD (lC m n) 0
        + ∑ k ∈ Finset.range K,
            (if B.getD (lB k n) false then A.getD (lA m k) 0 else 0) := by
  rw [mmaGenericBoolB_eq_visit, cellStepB_eq_addCell,
    getD_foldl_addCell _ _ _ _ _ hL]
  congr 1
  exact visit_contrib_sum M N K lC
    (fun k ms nv => if B.getD (lB k nv) false then A.getD (lA ms k) 0 else 0)
    m n hm hn hinj

/-- Witness for claim C2 at the concrete shape M = N = K = 1 with row-major
layouts, A = [7], B = [1], C = [3]. -/
theorem C2_mmaGenericBoolB_formula_witness :
    (mmaGenericBoolB 1 1 1 (rowMajor 1) (rowMajor 1) (rowMajor 1) [(7 : Int)]
        [true] [(3 : Int)]).getD (rowMajor 1 0 0) 0
      = ([(3 : Int)]).getD (rowMajor 1 0 0) 0
        + ∑ k ∈ Finset.range 1,
            (if ([true]).getD (rowMajor 1 k 0) false
              then ([(7 : Int)]).getD (rowMajor 1 0 k) 0 else 0) :=
  C2_mmaGenericBoolB_formula 1 1 1 (rowMajor 1) (rowMajor 1) (rowMajor 1)
    [(7 : Int)] [true] [(3 : Int)] 0 0 (by decide) (by decide) (by decide)
    (by decide)

/-- Claim C3: the serpentine m-traversal of the thread-level accumulate yields
exactly the same output fragment as the natural row-major traversal, for every
shape, every layout map and all operand and accumulator values, in both the
bool-A and the bool-B specialization. -/
theorem C3_serpentine_refinement {R : Type} [AddCommMonoid R] (M N K : Nat)
    (lA lB lC : Nat → Nat → Nat) (Asp : List Bool) (Bv Cv : List R)
    (Av : List R) (Bsp : List Bool) :
    mmaGenericBoolA M N K lA lB lC Asp Bv Cv
      = mmaGenericBoolANatural M N K lA lB lC Asp Bv Cv
    ∧ mmaGenericBoolB M N K lA lB lC Av Bsp Cv
      = mmaGenericBoolBNatural M N K lA lB lC Av Bsp Cv := by
  constructor
  · rw [mmaGenericBoolA_eq_visit, mmaGenericBoolANatural_eq_visit,
      cellStepA_eq_addCell]
    exact foldl_addCell_perm _ _ (visitOrder_perm_natural M N K) Cv
  · rw [mmaGenericBoolB_eq_visit, mmaGenericBoolBNatural_eq_visit,
      cellStepB_eq_addCell]
    exact foldl_addCell_perm _ _ (visitOrder_perm_natural M N K) Cv

/-- Claim C4: the accumulate loop nest runs k outermost, then n, then m
innermost, starting from D initialized to C and updating one cell per visited
triple; every in-range (k, n, row) triple is visited exactly once; within the
m loop the effective row index ascends from 0 to M - 1 for even n and
descends from M - 1 to 0 for odd n. -/
theorem C4_loop_structure :
    (∀ (R : Type) [AddCommMonoid R] (M N K : Nat) (lA lB lC : Nat → Nat → Nat)
        (A : List Bool) (B Cf : List R),
        mmaGenericBoolA M N K lA lB lC A B Cf
          = (visitOrder M N K).foldl (cellStepA lA lB lC A B) Cf)
    ∧ (∀ M N K k n ms : Nat, k < K → n < N → ms < M →
        (visitOrder M N K).count (k, n, ms) = 1)
    ∧ (∀ M n : Nat,
        (n % 2 = 0 → (List.range M).map (m_serpentine M n) = List.range M)
        ∧ (n % 2 = 1 →
            (List.range M).map (m_serpentine M n) = (List.range M).reverse)) := by
  refine ⟨?_, ?_, ?_⟩
  · intro R _ M N K lA lB lC A B Cf
    exact mmaGenericBoolA_eq_visit M N K lA lB lC A B Cf
  · intro M N K k n ms hk hn hms
    exact visitOrder_count M N K k n ms hk hn hms
  · intro M n
    exact ⟨serp_map_even M n, serp_map_odd M n⟩

/-- Witness for claim C4: the visit count and both serpentine directions at
concrete shapes. -/
theorem C4_loop_structure_witness :
    (visitOrder 2 2 2).count (1, 1, 0) = 1
    ∧ (List.range 3).map (m_serpentine 3 2) = List.range 3
    ∧ (List.range 3).map (m_serpentine 3 1) = (List.range 3).reverse :=
  ⟨C4_loop_structure.2.1 2 2 2 1 1 0 (by decide) (by decide) (by decide),
   (C4_loop_structure.2.2 3 2).1 (by decide),
   (C4_loop_structure.2.2 3 1).2 (by decide)⟩

/-- Claim C5: the threadblock SIMT SpikeMma specialization statically asserts
that the accumulator layout is row major or the rank-2 affine layout; any
other layout, in particular column major, fails the assertion and the
instantiation does not build. -/
theorem C5_threadblock_layoutC_assert :
    (∀ lC, spikeMmaSimtLayoutCAssert lC = true ↔
      (lC = LayoutTag.rowMajorTag ∨ lC = LayoutTag.affineRankN2Tag))
    ∧ spikeMmaSimtLayoutCAssert LayoutTag.columnMajorTag = false := by
  decide

/-- Claim C6: the warp-level SpikeMmaSimt transform is the identity on the
binary-operand path: it assigns A to dst_A and B to dst_B, changing no
element. -/
theorem C6_transform_identity {α β : Type} (A : List α) (B : List β) :
    spikeMmaSimtTransform A B = (A, B)
    ∧ (spikeMmaSimtTransform A B).1 = A
    ∧ (spikeMmaSimtTransform A B).2 = B :=
  ⟨rfl, rfl, rfl⟩

/-- Claim C7: the thread-level dispatch wrappers with a bool operand are pure
forwarding: their operator() produces exactly the output of the corresponding
MmaGeneric specialization on the same inputs. -/
theorem C7_dispatch_forwarding {R : Type} [AddCommMonoid R] (M N K : Nat)
    (lA lB lC : Nat → Nat → Nat) (Asp : List Bool) (Bv Cv : List R)
    (Av : List R) (Bsp : List Bool) :
    mmaBoolA M N K lA lB lC Asp Bv Cv = mmaGenericBoolA M N K lA lB lC Asp Bv Cv
    ∧ mmaBoolB M N K lA lB lC Av Bsp Cv
        = mmaGenericBoolB M N K lA lB lC Av Bsp Cv :=
  ⟨rfl, rfl⟩

/-- Claim C8: at the concrete thread-tile shape M = N = K = 2 with row-major
layouts, binary A the identity pattern, B = [[2,3],[4,5]] and C = 0, the
accumulate produces D = [[2,3],[4,5]]. -/
theorem C8_concrete_2x2x2 :
    mmaGenericBoolA 2 2 2 (rowMajor 2) (rowMajor 2) (rowMajor 2)
      [true, false, false, true] [(2 : Int), 3, 4, 5] [0, 0, 0, 0]
      = [2, 3, 4, 5] := by
  decide

/-- Claim C9: the thread-level accumulate is a pure function from its input
fragments to the output fragment: the inputs are taken immutably and the
produced fragment D has exactly the size of the accumulator fragment C, in
both the bool-A and the bool-B specialization. -/
theorem C9_fragment_frame {R : Type} [AddCommMonoid R] (M N K : Nat)
    (lA lB lC : Nat → Nat → Nat) (Asp : List Bool) (Bv Cv : List R)
    (Av : List R) (Bsp : List Bool) :
    (mmaGenericBoolA M N K lA lB lC Asp Bv Cv).length = Cv.length
    ∧ (mmaGenericBoolB M N K lA lB lC Av Bsp Cv).length = Cv.length := by
  constructor
  · rw [mmaGenericBoolA_eq_visit, cellStepA_eq_addCell, length_foldl_addCell]
  · rw [mmaGenericBoolB_eq_visit, cellStepB_eq_addCell, length_foldl_addCell]

/-- Claim C10: the warp-level use_dp4a flag holds exactly when LayoutA is one
of the two 4-wide interleaved layouts and both element types are int8_t; in
particular whenever ElementA or ElementB is bool the flag is false and
dp4a_type is bool, so the packed fast path is never selected on the binary
path. -/
theorem C10_use_dp4a_selection :
    (∀ lA eA eB, use_dp4a lA eA eB = true ↔
      ((lA = LayoutTag.columnMajorInterleaved4Tag
          ∨ lA = LayoutTag.rowMajorInterleaved4Tag)
        ∧ eA = ElementTag.int8 ∧ eB = ElementTag.int8))
    ∧ (∀ lA eA eB, (eA = ElementTag.boolTag ∨ eB = ElementTag.boolTag) →
        use_dp4a lA eA eB = false ∧ dp4a_type lA eA eB = ElementTag.boolTag) := by
  decide

/-- Witness for claim C10 on the binary path: ElementA bool with an
interleaved LayoutA still yields no dp4a fast path. -/
theorem C10_use_dp4a_selection_witness :
    use_dp4a LayoutTag.rowMajorInterleaved4Tag ElementTag.boolTag ElementTag.int8
        = false
    ∧ dp4a_type LayoutTag.rowMajorInterleaved4Tag ElementTag.boolTag
        ElementTag.int8 = ElementTag.boolTag :=
  C10_use_dp4a_selection.2 LayoutTag.rowMajorInterleaved4Tag ElementTag.boolTag
    ElementTag.int8 (Or.inl rfl)

end SpikeGemm
